import Mathlib

/-!
Verification of the chunking and batch-ingestion core of `populate_db.py`.

The Python source is shallowly embedded: text is `List Char`, Python `str.split`,
`str.strip` and the sentence-splitting regular expression are modelled by
executable Lean functions with the same behaviour, and the stateful
accumulation loop of `split_text_into_chunks` becomes a fold over an explicit
state record.  Fallible operations (a sink submission, `future.result()`, the
final rate division) are modelled with `Except`.
-/

namespace DocCore

/-- Characters counted as whitespace by Python's `str.strip`, `str.isspace`
and the regex class `\s` on `str` inputs: the Unicode whitespace code points. -/
def isSpace (c : Char) : Bool :=
  c.val ∈ ([9, 10, 11, 12, 13, 28, 29, 30, 31, 32, 133, 160, 5760,
    8192, 8193, 8194, 8195, 8196, 8197, 8198, 8199, 8200, 8201, 8202,
    8232, 8233, 8239, 8287, 12288] : List UInt32)

/-- End-of-sentence punctuation of the regex `(?<=[.!?])\s+` in
`split_text_into_chunks`. -/
def isSentEnd (c : Char) : Bool :=
  c == '.' || c == '!' || c == '?'

/-- The non-whitespace content of a string, used to state preservation of
content by the chunker. -/
def nonWs (l : List Char) : List Char :=
  l.filter (fun c => !(isSpace c))

/-- Python `str.strip()`: remove leading and trailing whitespace. -/
def pstrip (l : List Char) : List Char :=
  ((l.dropWhile isSpace).reverse.dropWhile isSpace).reverse

/-- Python `text.split(sep)` for the two-character separator `"\n\n"` used at
line 24 of `populate_db.py` (`text.split('\n\n')`): leftmost, non-overlapping,
empty pieces kept. -/
def splitOnPar : List Char → List (List Char)
  | [] => [[]]
  | '\n' :: '\n' :: rest => [] :: splitOnPar rest
  | c :: rest =>
    match splitOnPar rest with
    | p :: ps => (c :: p) :: ps
    | [] => [[c]]

/-- Worker for `splitSentences`.  `prevPunct` records whether the previous
character was `.`, `!` or `?` (the regex lookbehind); a split consumes the
maximal whitespace run (the greedy `\s+`). -/
def sentGo : List Char → Bool → List Char → List (List Char)
  | [], _, acc => [acc]
  | c :: rest, prevPunct, acc =>
    if prevPunct && isSpace c then
      acc :: sentGo (rest.dropWhile isSpace) false []
    else
      sentGo rest (isSentEnd c) (acc ++ [c])
termination_by s _ _ => s.length
decreasing_by
  · simp only [List.length_cons]
    exact Nat.lt_succ_of_le (List.dropWhile_sublist isSpace |>.length_le)
  · simp [Nat.lt_succ_self]

/-- Python `re.split(r'(?<=[.!?])\s+', paragraph)` from line 37 of
`populate_db.py`. -/
def splitSentences (s : List Char) : List (List Char) :=
  sentGo s false []

/-- The loop state of `split_text_into_chunks`: the list `chunks` and the
accumulating buffer `current_chunk`. -/
structure SplitState where
  chunks : List (List Char)
  current : List Char
  deriving Repr, DecidableEq

/-- One iteration of the inner `for sentence in sentences` loop of
`split_text_into_chunks` (lines 38-44): if the buffer plus the sentence fits
within `max_chunk_size` the sentence is appended with a single-space joiner,
otherwise the non-empty buffer is flushed (stripped) and the sentence starts a
new buffer. -/
def stepSentence (maxChunkSize : Nat) (st : SplitState) (s : List Char) : SplitState :=
  if st.current.length + s.length ≤ maxChunkSize then
    { st with current := if st.current.isEmpty then s else st.current ++ ' ' :: s }
  else
    { chunks := st.chunks ++ (if st.current.isEmpty then [] else [pstrip st.current]),
      current := s }

/-- One iteration of the outer `for paragraph in paragraphs` loop of
`split_text_into_chunks` (lines 29-50): the paragraph is stripped, empty
paragraphs are skipped, an oversized paragraph is split into sentences fed to
`stepSentence`, and a fitting paragraph is appended to the buffer with a
blank-line joiner, flushing first when it does not fit. -/
def stepParagraph (maxChunkSize : Nat) (st : SplitState) (para : List Char) : SplitState :=
  let p := pstrip para
  if p.isEmpty then st
  else if maxChunkSize < p.length then
    (splitSentences p).foldl (stepSentence maxChunkSize) st
  else if st.current.length + p.length ≤ maxChunkSize then
    { st with current := if st.current.isEmpty then p else st.current ++ '\n' :: '\n' :: p }
  else
    { chunks := st.chunks ++ [pstrip st.current], current := p }

/-- The chunker `split_text_into_chunks(text, max_chunk_size=1000)` of
`populate_db.py` lines 19-55: split on blank lines, pack paragraphs (or, for
oversized paragraphs, sentences) greedily, flush the final buffer. -/
def split_text_into_chunks (text : List Char) (maxChunkSize : Nat) : List (List Char) :=
  let st := (splitOnPar text).foldl (stepParagraph maxChunkSize) ⟨[], []⟩
  st.chunks ++ (if st.current.isEmpty then [] else [pstrip st.current])

/-- The batch-assembly comprehension of line 146 of `populate_db.py`:
`[all_chunks[i:i + batch_size] for i in range(0, len(all_chunks), batch_size)]`.
For `batch_size > 0` the Python `range` has `ceil(len/batch_size)` elements;
the slice `l[i:i+b]` is `(l.drop i).take b`. -/
def makeBatches (l : List α) (batch_size : Nat) : List (List α) :=
  (List.range' 0 ((l.length + batch_size - 1) / batch_size) batch_size).map
    (fun i => (l.drop i).take batch_size)

/-- The function `process_batch` of `populate_db.py` lines 118-132: the whole
sink submission (`with newsDb.batch.dynamic() ...`) runs inside a
`try`/`except` whose handler only prints, so the outcome visible through
`future.result()` is always a normal `None` return.  The sink is abstracted as
a fallible `submit`. -/
def process_batch (submit : List α → Except String Unit) (chunks : List α) :
    Except String Unit :=
  match submit chunks with
  | Except.ok u => Except.ok u
  | Except.error _ => Except.ok ()

/-- The result-collection loop of `import_with_batching` lines 153-161:
`for future in futures: future.result(); completed += batch_size;
if completed % 5000 == 0: print rate`.  The loop threads the counter
`completed` and the list of progress observations (the `completed` values at
which a rate is printed); an exception from `future.result()` propagates. -/
def schedLoop :
    List (Except String Unit) → Nat → Nat → List Nat → Except String (Nat × List Nat)
  | [], _, completed, emitted => Except.ok (completed, emitted)
  | r :: rest, batch_size, completed, emitted =>
    match r with
    | Except.ok _ =>
      schedLoop rest batch_size (completed + batch_size)
        (if (completed + batch_size) % 5000 = 0
          then emitted ++ [completed + batch_size] else emitted)
    | Except.error e => Except.error e

/-- Closed form of the progress observations: after the `(i+1)`-st future the
counter is `(i+1) * batch_size`, printed exactly when divisible by 5000. -/
def progressList (numBatches batch_size : Nat) : List Nat :=
  (List.range numBatches).filterMap (fun i =>
    if ((i + 1) * batch_size) % 5000 = 0 then some ((i + 1) * batch_size) else none)

/-- The final rate computation of `import_with_batching` lines 164-165:
`final_rate = len(all_chunks) / elapsed_time` with no zero guard; Python
raises `ZeroDivisionError` when `elapsed_time` is zero.  Elapsed time is
modelled as an exact rational. -/
def finalReport (numChunks : Nat) (elapsed : ℚ) : Except String ℚ :=
  if elapsed = 0 then Except.error "ZeroDivisionError"
  else Except.ok ((numChunks : ℚ) / elapsed)

/-- Observable control-flow events of one `import_with_batching` run. -/
inductive RunEvent
  | fileProcessed
  | batchSubmitted
  | errorRaised
  deriving Repr, DecidableEq

/-- Control-flow trace of `import_with_batching(file_path, batch_size)` lines
135-171: the directory walk processes every file first (each file is chunked
with the default `max_chunk_size` of 1000), then line 146 builds the batch
list — where `range(0, n, 0)` raises `ValueError` when `batch_size = 0`, an
exception the outer handler re-raises — and only afterwards are batches
submitted. -/
def import_with_batching (files : List (List Char)) (batch_size : Nat) : List RunEvent :=
  let fileEvents := files.map (fun _ => RunEvent.fileProcessed)
  let allChunks := (files.map (fun t => split_text_into_chunks t 1000)).flatten
  if batch_size = 0 then
    fileEvents ++ [RunEvent.errorRaised]
  else
    fileEvents ++ (makeBatches allChunks batch_size).map (fun _ => RunEvent.batchSubmitted)

/-- Progress observations of the collection loop, with the counter starting
at `c` instead of 0; used to state the loop's closed form. -/
def emitsFrom (c batch_size n : Nat) : List Nat :=
  (List.range n).filterMap (fun i =>
    if (c + (i + 1) * batch_size) % 5000 = 0 then some (c + (i + 1) * batch_size) else none)

/-! ## Basic lemmas about whitespace, stripping and splitting -/

theorem isSentEnd_not_isSpace {c : Char} (h : isSentEnd c = true) : isSpace c = false := by
  simp only [isSentEnd, Bool.or_eq_true, beq_iff_eq] at h
  rcases h with (h | h) | h <;> subst h <;> decide

theorem nonWs_append (a b : List Char) : nonWs (a ++ b) = nonWs a ++ nonWs b :=
  List.filter_append a b

theorem nonWs_cons_space {c : Char} (h : isSpace c = true) (l : List Char) :
    nonWs (c :: l) = nonWs l := by
  simp [nonWs, List.filter_cons, h]

theorem nonWs_cons_nonspace {c : Char} (h : isSpace c = false) (l : List Char) :
    nonWs (c :: l) = c :: nonWs l := by
  simp [nonWs, List.filter_cons, h]

theorem nonWs_nil : nonWs [] = [] := rfl

theorem nonWs_dropWhile (l : List Char) : nonWs (l.dropWhile isSpace) = nonWs l := by
  induction l with
  | nil => rfl
  | cons c t ih =>
    by_cases h : isSpace c
    · rw [List.dropWhile_cons_of_pos h, ih, nonWs_cons_space h]
    · rw [List.dropWhile_cons_of_neg h]

theorem nonWs_reverse (l : List Char) : nonWs l.reverse = (nonWs l).reverse :=
  List.filter_reverse _ l

theorem nonWs_pstrip (l : List Char) : nonWs (pstrip l) = nonWs l := by
  unfold pstrip
  rw [nonWs_reverse, nonWs_dropWhile, nonWs_reverse, List.reverse_reverse, nonWs_dropWhile]

theorem pstrip_ne_nil {l : List Char} (h : nonWs l ≠ []) : pstrip l ≠ [] := by
  intro hc
  exact h (by rw [← nonWs_pstrip, hc]; rfl)

theorem pstrip_length_le (l : List Char) : (pstrip l).length ≤ l.length := by
  unfold pstrip
  rw [List.length_reverse]
  calc ((l.dropWhile isSpace).reverse.dropWhile isSpace).length
      ≤ (l.dropWhile isSpace).reverse.length :=
        (List.dropWhile_sublist isSpace).length_le
    _ = (l.dropWhile isSpace).length := List.length_reverse _
    _ ≤ l.length := (List.dropWhile_sublist isSpace).length_le

theorem head?_dropWhile_not {α : Type} {p : α → Bool} {l : List α} {c : α}
    (h : (l.dropWhile p).head? = some c) : p c = false := by
  induction l with
  | nil => simp at h
  | cons a t ih =>
    by_cases ha : p a
    · rw [List.dropWhile_cons_of_pos ha] at h; exact ih h
    · rw [List.dropWhile_cons_of_neg ha] at h
      simp only [List.head?_cons, Option.some.injEq] at h
      subst h; simpa using ha

theorem getLast?_dropWhile {α : Type} {p : α → Bool} {l : List α}
    (h : l.dropWhile p ≠ []) : (l.dropWhile p).getLast? = l.getLast? := by
  conv_rhs => rw [← List.takeWhile_append_dropWhile (p := p) (l := l)]
  rw [List.getLast?_append]
  rcases hl : (l.dropWhile p).getLast? with _ | c
  · exact absurd (List.getLast?_eq_none_iff.mp hl) h
  · simp [Option.or]

theorem dropWhile_eq_self {α : Type} {p : α → Bool} {l : List α}
    (h : ∀ c, l.head? = some c → p c = false) : l.dropWhile p = l := by
  cases l with
  | nil => rfl
  | cons a t => exact List.dropWhile_cons_of_neg (by simpa using h a rfl)

theorem pstrip_eq_self {l : List Char}
    (h1 : ∀ c, l.head? = some c → isSpace c = false)
    (h2 : ∀ c, l.getLast? = some c → isSpace c = false) : pstrip l = l := by
  unfold pstrip
  rw [dropWhile_eq_self h1, dropWhile_eq_self (by
    intro c hc
    rw [List.head?_reverse] at hc
    exact h2 c hc), List.reverse_reverse]

theorem pstrip_head? {l : List Char} {c : Char} (h : (pstrip l).head? = some c) :
    isSpace c = false := by
  unfold pstrip at h
  rw [List.head?_reverse] at h
  have hne : (l.dropWhile isSpace).reverse.dropWhile isSpace ≠ [] := by
    intro hc; rw [hc] at h; simp at h
  rw [getLast?_dropWhile hne, List.getLast?_reverse] at h
  exact head?_dropWhile_not h

theorem pstrip_getLast? {l : List Char} {c : Char} (h : (pstrip l).getLast? = some c) :
    isSpace c = false := by
  unfold pstrip at h
  rw [List.getLast?_reverse] at h
  exact head?_dropWhile_not h

theorem pstrip_idem (l : List Char) : pstrip (pstrip l) = pstrip l :=
  pstrip_eq_self (fun _ h => pstrip_head? h) (fun _ h => pstrip_getLast? h)

theorem nonWs_ne_nil_of_head {l : List Char} {c : Char} (h : l.head? = some c)
    (hc : isSpace c = false) : nonWs l ≠ [] := by
  cases l with
  | nil => simp at h
  | cons a t =>
    simp only [List.head?_cons, Option.some.injEq] at h
    subst h
    simp [nonWs, List.filter_cons, hc]

/-! ## Easy claims: process_batch, final rate, batch_size = 0 run, the
two-paragraph scenario -/

/-- Claim C10 (confirmed): `process_batch` returns normally for every input
batch; any exception raised during the sink submission is caught inside
`process_batch`, so a failed submission is never observable through the
returned future's result. -/
theorem claim_C10 {α : Type} (submit : List α → Except String Unit) (chunks : List α) :
    process_batch submit chunks = Except.ok () := by
  unfold process_batch
  cases h : submit chunks with
  | ok u => cases u; rfl
  | error e => rfl

/-- Helper used by the scheduler lemmas: same fact as claim C10, namely the
sink submission's outcome is swallowed. -/
theorem process_batch_ok {α : Type} (submit : List α → Except String Unit) (chunks : List α) :
    process_batch submit chunks = Except.ok () := by
  unfold process_batch
  cases h : submit chunks with
  | ok u => cases u; rfl
  | error e => rfl

/-- Claim C7 counterexample: at zero elapsed time the final rate computation is
not skipped; it raises `ZeroDivisionError` (`final_rate = len(all_chunks) /
elapsed_time` has no zero guard), refuting the claim that rate reporting never
divides by a zero elapsed time. -/
theorem claim_C7_counterexample :
    ¬ (∀ n : Nat, finalReport n 0 ≠ Except.error "ZeroDivisionError") := by
  intro h
  exact h 7 (by simp [finalReport])

/-- Claim C7 (corrected): if the total elapsed time of a run is zero, the
final rate computation is executed anyway and raises `ZeroDivisionError`,
which propagates to the caller; for a nonzero elapsed time the rate
`len(all_chunks) / elapsed_time` is computed. -/
theorem claim_C7 (n : Nat) :
    finalReport n 0 = Except.error "ZeroDivisionError"
      ∧ ∀ e : ℚ, e ≠ 0 → finalReport n e = Except.ok ((n : ℚ) / e) := by
  constructor
  · simp [finalReport]
  · intro e he
    simp [finalReport, he]

/-- Claim C7 witness: the corrected statement evaluated at 7 chunks, elapsed
times 0 and 2. -/
theorem claim_C7_witness :
    finalReport 7 0 = Except.error "ZeroDivisionError"
      ∧ finalReport 7 2 = Except.ok ((7 : ℚ) / 2) :=
  ⟨(claim_C7 7).1, (claim_C7 7).2 2 (by norm_num)⟩

/-- Claim C6 counterexample: with `batch_size = 0` the run does start; a file
is processed before the error is raised (the trace is not the bare error
event), refuting "no file is processed before the error is raised". -/
theorem claim_C6_counterexample :
    ¬ (∀ files : List (List Char), import_with_batching files 0 = [RunEvent.errorRaised]) := by
  intro h
  exact absurd (h [['a']]) (by decide)

/-- Claim C6 (corrected): when `batch_size = 0` an error is raised to the
caller (`range(0, n, 0)` raises `ValueError`, re-raised by the outer handler)
and no batch is ever submitted, but only after every file has been walked and
processed: the whole directory is chunked before the batch list is built. -/
theorem claim_C6 (files : List (List Char)) :
    import_with_batching files 0
        = files.map (fun _ => RunEvent.fileProcessed) ++ [RunEvent.errorRaised]
      ∧ RunEvent.batchSubmitted ∉ import_with_batching files 0 := by
  refine ⟨by simp [import_with_batching], ?_⟩
  simp only [import_with_batching, if_pos rfl]
  intro hmem
  rcases List.mem_append.mp hmem with hmem | hmem
  · rcases List.mem_map.mp hmem with ⟨_, _, hEq⟩
    exact RunEvent.noConfusion hEq
  · simp at hmem

/-- Claim C4 counterexample: on the spec's two-paragraph scenario input with
`max_chunk_size = 60` the chunker does not return two chunks. -/
theorem claim_C4_counterexample :
    (split_text_into_chunks
      ("Para one.\n\nPara two is a bit longer but still short.".toList) 60).length ≠ 2 := by
  decide

/-- Claim C4 (corrected): on input `"Para one.\n\nPara two is a bit longer
but still short."` with `max_chunk_size = 60` the chunker returns exactly one
chunk, the two paragraphs joined by the blank-line separator: their combined
length 52 is within 60, so the second paragraph is appended to the buffer
holding the first instead of starting a new chunk. -/
theorem claim_C4 :
    split_text_into_chunks
        ("Para one.\n\nPara two is a bit longer but still short.".toList) 60
      = ["Para one.\n\nPara two is a bit longer but still short.".toList] := by
  decide

/-! ## The result-collection loop: completed counter and progress emissions -/

theorem emitsFrom_succ (c batch_size n : Nat) :
    emitsFrom c batch_size (n + 1)
      = (if (c + batch_size) % 5000 = 0 then [c + batch_size] else [])
          ++ emitsFrom (c + batch_size) batch_size n := by
  have harith : ∀ i : Nat, c + (i + 1 + 1) * batch_size
      = c + batch_size + (i + 1) * batch_size := by
    intro i; ring
  have hfun : ((fun i => if (c + (i + 1) * batch_size) % 5000 = 0
        then some (c + (i + 1) * batch_size) else none) ∘ Nat.succ)
      = (fun i => if (c + batch_size + (i + 1) * batch_size) % 5000 = 0
        then some (c + batch_size + (i + 1) * batch_size) else none) := by
    funext i
    simp only [Function.comp, Nat.succ_eq_add_one, harith i]
  simp only [emitsFrom, List.range_succ_eq_map, List.filterMap_cons, List.filterMap_map, hfun]
  by_cases h : (c + batch_size) % 5000 = 0
  · simp [h]
  · simp [h]

theorem schedLoop_ok (results : List (Except String Unit)) (batch_size : Nat)
    (hok : ∀ r ∈ results, r = Except.ok ()) :
    ∀ c e, schedLoop results batch_size c e
      = Except.ok (c + results.length * batch_size, e ++ emitsFrom c batch_size results.length) := by
  induction results with
  | nil => intro c e; simp [schedLoop, emitsFrom]
  | cons r rest ih =>
    intro c e
    have hr : r = Except.ok () := hok r (List.mem_cons_self r rest)
    subst hr
    have hrest : ∀ x ∈ rest, x = Except.ok () := fun x hx => hok x (List.mem_cons_of_mem _ hx)
    show schedLoop (Except.ok () :: rest) batch_size c e = _
    rw [schedLoop, ih hrest]
    refine congrArg _ (Prod.ext ?_ ?_)
    · show c + batch_size + rest.length * batch_size
        = c + (rest.length + 1) * batch_size
      ring
    · show (if (c + batch_size) % 5000 = 0 then e ++ [c + batch_size] else e)
          ++ emitsFrom (c + batch_size) batch_size rest.length
        = e ++ emitsFrom c batch_size (rest.length + 1)
      rw [emitsFrom_succ]
      by_cases h : (c + batch_size) % 5000 = 0 <;> simp [h]

theorem progressList_eq_emitsFrom (n batch_size : Nat) :
    progressList n batch_size = emitsFrom 0 batch_size n := by
  unfold progressList emitsFrom
  refine congrArg₂ _ (funext fun i => ?_) rfl
  simp

theorem map_process_batch_ok {α : Type} (submit : List α → Except String Unit)
    (batches : List (List α)) :
    ∀ r ∈ batches.map (process_batch submit), r = Except.ok () := by
  intro r hr
  rcases List.mem_map.mp hr with ⟨b, _, hEq⟩
  rw [← hEq]
  exact process_batch_ok submit b

/-- Claim C2 counterexample: three chunks batched with `batch_size = 2` give
batches of sizes 2 and 1.  With no sink failure the claim predicts a final
completed count of 3 (the batches' actual sizes); with every submission
failing it predicts 0.  The loop instead adds `batch_size` per future
unconditionally and reports 4 in both cases. -/
theorem claim_C2_counterexample :
    (schedLoop ((makeBatches [0, 1, 2] 2).map
        (process_batch (fun _ => Except.ok ()))) 2 0 []).map Prod.fst = Except.ok 4
      ∧ (schedLoop ((makeBatches [0, 1, 2] 2).map
        (process_batch (fun _ => Except.error "sink rejected batch"))) 2 0 []).map Prod.fst
          = Except.ok 4
      ∧ (4 : Nat) ≠ 3 ∧ (4 : Nat) ≠ 0 := by
  refine ⟨rfl, rfl, by decide, by decide⟩

/-- Claim C2 (corrected): the collection loop increments the completed counter
by the configured `batch_size` for every future, including the final partial
batch and batches whose sink submission failed (`process_batch` swallows the
error, so `future.result()` always returns normally).  For K batches the final
counter is therefore `K * batch_size`, regardless of failures and of the last
batch's actual size. -/
theorem claim_C2 {α : Type} (batches : List (List α)) (batch_size : Nat)
    (submit : List α → Except String Unit) :
    (schedLoop (batches.map (process_batch submit)) batch_size 0 []).map Prod.fst
      = Except.ok (batches.length * batch_size) := by
  rw [schedLoop_ok _ _ (map_process_batch_ok submit batches) 0 []]
  simp [Except.map]

/-- Claim C8 counterexample: one completed batch of `batch_size = 7000` moves
the running total from 0 to 7000, crossing the multiple 5000 of
`progress_interval`, yet the emission list is empty: the loop only emits when
`completed % 5000 == 0` holds exactly, refuting "emitted every time the
running total crosses a multiple of progress_interval". -/
theorem claim_C8_counterexample :
    schedLoop [Except.ok ()] 7000 0 [] = Except.ok (7000, [])
      ∧ 0 < 5000 ∧ 5000 ≤ 7000 := by
  refine ⟨rfl, by decide, by decide⟩

/-- Claim C8 (corrected): a progress observation is emitted after a batch
completion exactly when the new value of the running counter (a multiple of
`batch_size`) is exactly divisible by 5000; crossings of a multiple of 5000
that do not land exactly on it emit nothing.  The emission list of a run of K
batches is `progressList K batch_size`, whose members are characterised
below. -/
theorem claim_C8 {α : Type} (batches : List (List α)) (batch_size : Nat)
    (submit : List α → Except String Unit) :
    (schedLoop (batches.map (process_batch submit)) batch_size 0 []).map Prod.snd
        = Except.ok (progressList batches.length batch_size)
      ∧ ∀ v, v ∈ progressList batches.length batch_size
          ↔ ∃ i, i < batches.length ∧ v = (i + 1) * batch_size ∧ v % 5000 = 0 := by
  constructor
  · rw [schedLoop_ok _ _ (map_process_batch_ok submit batches) 0 []]
    simp [Except.map, progressList_eq_emitsFrom]
  · intro v
    constructor
    · intro hv
      rcases List.mem_filterMap.mp hv with ⟨i, hi, hf⟩
      by_cases h : ((i + 1) * batch_size) % 5000 = 0
      · rw [if_pos h] at hf
        rcases Option.some.injEq _ _ ▸ hf with rfl
        exact ⟨i, List.mem_range.mp hi, rfl, h⟩
      · rw [if_neg h] at hf
        exact absurd hf (Option.noConfusion)
    · rintro ⟨i, hiK, rfl, hmod⟩
      exact List.mem_filterMap.mpr ⟨i, List.mem_range.mpr hiK, by rw [if_pos hmod]⟩

/-! ## Batch assembly -/

theorem makeBatches_nil {α : Type} (b : Nat) : makeBatches ([] : List α) b = [] := by
  unfold makeBatches
  have hz : (List.length ([] : List α) + b - 1) / b = 0 := by
    cases b with
    | zero => simp
    | succ k => exact Nat.div_eq_of_lt (by simp)
  rw [hz]
  rfl

theorem makeBatches_cons {α : Type} {l : List α} {b : Nat} (hb : 0 < b) (hl : l ≠ []) :
    makeBatches l b = l.take b :: makeBatches (l.drop b) b := by
  have hn : 1 ≤ l.length := List.length_pos.mpr hl
  have harith : (l.length + b - 1) / b = ((l.length - b) + b - 1) / b + 1 := by
    rcases le_or_lt l.length b with hle | hlt
    · have h1 : (l.length + b - 1) / b = 1 := by
        have hlow : 1 * b ≤ l.length + b - 1 := by omega
        have hhigh : l.length + b - 1 < (1 + 1) * b := by omega
        exact Nat.div_eq_of_lt_le hlow hhigh
      have h2 : l.length - b = 0 := by omega
      rw [h1, h2]
      have : (0 + b - 1) / b = 0 := Nat.div_eq_of_lt (by omega)
      rw [this]
    · have heq : l.length + b - 1 = ((l.length - b) + b - 1) + b := by omega
      rw [heq, Nat.add_div_right _ hb]
  unfold makeBatches
  rw [List.length_drop, harith, List.range'_succ, List.map_cons, List.drop_zero]
  refine congrArg₂ _ rfl ?_
  rw [zero_add]
  have hshift := List.map_add_range' b 0 ((l.length - b + b - 1) / b) b
  rw [Nat.add_zero] at hshift
  rw [← hshift, List.map_map]
  refine congrArg₂ _ (funext fun i => ?_) rfl
  simp [Function.comp, List.drop_drop]

theorem makeBatches_length {α : Type} (l : List α) (b : Nat) :
    (makeBatches l b).length = (l.length + b - 1) / b := by
  simp [makeBatches]

theorem makeBatches_flatten {α : Type} (l : List α) (b : Nat) (hb : 0 < b) :
    (makeBatches l b).flatten = l := by
  by_cases hl : l = []
  · subst hl; rw [makeBatches_nil]; rfl
  · rw [makeBatches_cons hb hl, List.flatten_cons,
      makeBatches_flatten (l.drop b) b hb, List.take_append_drop]
termination_by l.length
decreasing_by
  have : 0 < l.length := List.length_pos.mpr hl
  simp only [List.length_drop]
  omega

theorem makeBatches_dropLast_length {α : Type} (l : List α) (b : Nat) (hb : 0 < b) :
    ∀ batch ∈ (makeBatches l b).dropLast, batch.length = b := by
  by_cases hl : l = []
  · subst hl; rw [makeBatches_nil]; intro batch h; simp at h
  · rw [makeBatches_cons hb hl]
    by_cases hrest : l.drop b = []
    · rw [hrest, makeBatches_nil]
      intro batch h; simp at h
    · intro batch hmem
      have hlen : b < l.length := by
        have h1 : 0 < (l.drop b).length := List.length_pos.mpr hrest
        rw [List.length_drop] at h1
        omega
      have hne : makeBatches (l.drop b) b ≠ [] := by
        rw [makeBatches_cons hb hrest]
        exact List.cons_ne_nil _ _
      rw [List.dropLast_cons_of_ne_nil hne] at hmem
      rcases List.mem_cons.mp hmem with rfl | hmem
      · rw [List.length_take]
        omega
      · exact makeBatches_dropLast_length (l.drop b) b hb batch hmem
termination_by l.length
decreasing_by
  have : 0 < l.length := List.length_pos.mpr hl
  simp only [List.length_drop]
  omega

theorem makeBatches_getLast_length {α : Type} (l : List α) (b : Nat) (hb : 0 < b) :
    ∀ lb, (makeBatches l b).getLast? = some lb →
      lb.length = if l.length % b = 0 then b else l.length % b := by
  by_cases hl : l = []
  · subst hl; rw [makeBatches_nil]; intro lb h; simp at h
  · rw [makeBatches_cons hb hl]
    intro lb hlast
    by_cases hrest : l.drop b = []
    · rw [hrest, makeBatches_nil] at hlast
      simp only [List.getLast?_singleton, Option.some.injEq] at hlast
      subst hlast
      have hle : l.length ≤ b := by
        have := List.length_drop b l
        rw [hrest] at this
        simp at this
        omega
      have hpos : 0 < l.length := List.length_pos.mpr hl
      rw [List.length_take]
      rcases Nat.lt_or_ge l.length b with hlt | hge
      · have hmod : l.length % b = l.length := Nat.mod_eq_of_lt hlt
        rw [if_neg (by omega)]
        omega
      · have heq : l.length = b := by omega
        rw [heq]
        simp
    · have hne : makeBatches (l.drop b) b ≠ [] := by
        rw [makeBatches_cons hb hrest]
        exact List.cons_ne_nil _ _
      rcases hM : makeBatches (l.drop b) b with _ | ⟨y, t⟩
      · exact absurd hM hne
      rw [hM, List.getLast?_cons_cons] at hlast
      have := makeBatches_getLast_length (l.drop b) b hb lb (by rw [hM]; exact hlast)
      rw [List.length_drop] at this
      have hlen : b < l.length := by
        have h1 : 0 < (l.drop b).length := List.length_pos.mpr hrest
        rw [List.length_drop] at h1
        omega
      have hmod : (l.length - b) % b = l.length % b := by
        have heq : l.length = (l.length - b) + b := by omega
        conv_rhs => rw [heq]
        rw [Nat.add_mod_right]
      rw [hmod] at this
      exact this
termination_by l.length
decreasing_by
  have : 0 < l.length := List.length_pos.mpr hl
  simp only [List.length_drop]
  omega

/-- Claim C5 (confirmed): for every chunk sequence of length N and every
batch_size B > 0, the batch-assembly comprehension produces `ceil(N/B)`
batches (as the integer `(N + B - 1) / B`), all but the last of size exactly
B, the last of size `N mod B` (or B when B divides N), and concatenating the
batches in order reproduces the input sequence exactly. -/
theorem claim_C5 {α : Type} (l : List α) (b : Nat) (hb : 0 < b) :
    (makeBatches l b).length = (l.length + b - 1) / b
      ∧ (makeBatches l b).flatten = l
      ∧ (∀ batch ∈ (makeBatches l b).dropLast, batch.length = b)
      ∧ (∀ lb, (makeBatches l b).getLast? = some lb →
          lb.length = if l.length % b = 0 then b else l.length % b) :=
  ⟨makeBatches_length l b, makeBatches_flatten l b hb,
    makeBatches_dropLast_length l b hb, makeBatches_getLast_length l b hb⟩

/-- Claim C5 witness: the batching properties evaluated on seven elements with
batch size 3 (batches `[[0,1,2],[3,4,5],[6]]`). -/
theorem claim_C5_witness :
    0 < 3
      ∧ ((makeBatches [0, 1, 2, 3, 4, 5, 6] 3).length = (7 + 3 - 1) / 3
        ∧ (makeBatches [0, 1, 2, 3, 4, 5, 6] 3).flatten = [0, 1, 2, 3, 4, 5, 6]
        ∧ (∀ batch ∈ (makeBatches [0, 1, 2, 3, 4, 5, 6] 3).dropLast, batch.length = 3)
        ∧ (∀ lb, (makeBatches [0, 1, 2, 3, 4, 5, 6] 3).getLast? = some lb →
            lb.length = if ([0, 1, 2, 3, 4, 5, 6] : List Nat).length % 3 = 0
              then 3 else ([0, 1, 2, 3, 4, 5, 6] : List Nat).length % 3)) :=
  ⟨by decide, claim_C5 [0, 1, 2, 3, 4, 5, 6] 3 (by decide)⟩

/-! ## Splitting lemmas: paragraphs and sentences preserve non-whitespace
content -/

theorem splitOnPar_cons_ne {c : Char} {rest : List Char}
    (hne : ∀ rest2, c = '\n' → rest = '\n' :: rest2 → False) :
    splitOnPar (c :: rest) = match splitOnPar rest with
      | p :: ps => (c :: p) :: ps
      | [] => [[c]] := by
  rw [splitOnPar.eq_def]
  split
  · rename_i heq
    exact absurd heq (List.cons_ne_nil _ _)
  · rename_i rest2 heq
    rw [List.cons.injEq] at heq
    exact (hne rest2 heq.1 heq.2).elim
  · rename_i x c2 rest2 hne2 heq
    rw [List.cons.injEq] at heq
    rcases heq with ⟨h1, h2⟩
    subst h1
    subst h2
    rfl

theorem sentGo_nonWs (s : List Char) (prev : Bool) (acc : List Char) :
    ((sentGo s prev acc).map nonWs).flatten = nonWs acc ++ nonWs s := by
  induction s, prev, acc using sentGo.induct with
  | case1 prev acc => simp [sentGo, nonWs]
  | case2 c rest prev acc hcond ih =>
    rw [sentGo, if_pos hcond]
    have hsp : isSpace c = true := (Bool.and_eq_true _ _ |>.mp hcond).2
    simp only [List.map_cons, List.flatten_cons, ih, nonWs_dropWhile,
      nonWs_cons_space hsp]
    simp [nonWs]
  | case3 c rest prev acc hcond ih =>
    rw [sentGo, if_neg hcond]
    rw [ih, nonWs_append]
    by_cases h : isSpace c
    · rw [nonWs_cons_space h]
      simp [nonWs, List.filter_cons, h]
    · have h' : isSpace c = false := by simpa using h
      simp [nonWs, List.filter_cons, h']

theorem splitSentences_nonWs (s : List Char) :
    ((splitSentences s).map nonWs).flatten = nonWs s := by
  unfold splitSentences
  rw [sentGo_nonWs]
  simp [nonWs]

theorem splitOnPar_ne_nil (t : List Char) : splitOnPar t ≠ [] := by
  induction t using splitOnPar.induct with
  | case1 => simp [splitOnPar]
  | case2 rest ih => simp [splitOnPar]
  | case3 c rest hne p ps hsp ih =>
    rw [splitOnPar_cons_ne hne, hsp]
    exact List.cons_ne_nil _ _
  | case4 c rest hne hsp ih =>
    rw [splitOnPar_cons_ne hne, hsp]
    exact List.cons_ne_nil _ _

theorem splitOnPar_nonWs (t : List Char) :
    ((splitOnPar t).map nonWs).flatten = nonWs t := by
  induction t using splitOnPar.induct with
  | case1 => simp [splitOnPar, nonWs]
  | case2 rest ih =>
    rw [splitOnPar]
    simp only [List.map_cons, List.flatten_cons, ih]
    rw [nonWs_cons_space (by decide), nonWs_cons_space (by decide)]
    simp [nonWs]
  | case3 c rest hne p ps hsp ih =>
    rw [splitOnPar_cons_ne hne, hsp]
    rw [hsp] at ih
    simp only [List.map_cons, List.flatten_cons] at ih ⊢
    by_cases h : isSpace c
    · rw [nonWs_cons_space h, nonWs_cons_space h, ih]
    · have h' : isSpace c = false := by simpa using h
      rw [nonWs_cons_nonspace h', nonWs_cons_nonspace h', List.cons_append, ih]
  | case4 c rest hne hsp ih =>
    exact absurd hsp (splitOnPar_ne_nil rest)

/-! ## Content preservation through the chunking fold -/

theorem stepSentence_nonWs (m : Nat) (st : SplitState) (s : List Char) :
    ((stepSentence m st s).chunks.map nonWs).flatten ++ nonWs (stepSentence m st s).current
      = (st.chunks.map nonWs).flatten ++ nonWs st.current ++ nonWs s := by
  unfold stepSentence
  by_cases hfit : st.current.length + s.length ≤ m
  · rw [if_pos hfit]
    by_cases he : st.current.isEmpty
    · have hc : st.current = [] := List.isEmpty_iff.mp he
      simp [he, hc, nonWs, List.append_assoc]
    · have he' : st.current.isEmpty = false := Bool.eq_false_iff.mpr he
      simp only [he', Bool.false_eq_true, if_neg, not_false_iff]
      rw [nonWs_append, nonWs_cons_space (by decide), List.append_assoc]
  · rw [if_neg hfit]
    by_cases he : st.current.isEmpty
    · have hc : st.current = [] := List.isEmpty_iff.mp he
      simp [he, hc, nonWs, List.append_assoc]
    · have he' : st.current.isEmpty = false := Bool.eq_false_iff.mpr he
      simp only [he', Bool.false_eq_true, if_neg, not_false_iff]
      rw [List.map_append, List.flatten_append]
      simp only [List.map_cons, List.map_nil, List.flatten_cons, List.flatten_nil,
        List.append_nil, nonWs_pstrip, List.append_assoc]

theorem foldl_stepSentence_nonWs (m : Nat) (sents : List (List Char)) :
    ∀ st : SplitState,
      ((sents.foldl (stepSentence m) st).chunks.map nonWs).flatten
          ++ nonWs (sents.foldl (stepSentence m) st).current
        = (st.chunks.map nonWs).flatten ++ nonWs st.current ++ (sents.map nonWs).flatten := by
  induction sents with
  | nil => intro st; simp
  | cons s rest ih =>
    intro st
    rw [List.foldl_cons, ih, stepSentence_nonWs]
    simp [List.append_assoc]

theorem stepParagraph_nonWs (m : Nat) (st : SplitState) (para : List Char) :
    ((stepParagraph m st para).chunks.map nonWs).flatten
        ++ nonWs (stepParagraph m st para).current
      = (st.chunks.map nonWs).flatten ++ nonWs st.current ++ nonWs para := by
  unfold stepParagraph
  by_cases hemp : (pstrip para).isEmpty
  · have hp : pstrip para = [] := List.isEmpty_iff.mp hemp
    have hnw : nonWs para = [] := by rw [← nonWs_pstrip, hp]; rfl
    simp [hemp, hnw]
  · have hemp' : (pstrip para).isEmpty = false := Bool.eq_false_iff.mpr hemp
    simp only [hemp', Bool.false_eq_true, if_neg, not_false_iff]
    by_cases hlong : m < (pstrip para).length
    · rw [if_pos hlong, foldl_stepSentence_nonWs, splitSentences_nonWs, nonWs_pstrip]
    · rw [if_neg hlong]
      by_cases hfit : st.current.length + (pstrip para).length ≤ m
      · rw [if_pos hfit]
        by_cases he : st.current.isEmpty
        · have hc : st.current = [] := List.isEmpty_iff.mp he
          simp [he, hc, nonWs_nil, nonWs_pstrip, List.append_assoc]
        · have he' : st.current.isEmpty = false := Bool.eq_false_iff.mpr he
          simp only [he', Bool.false_eq_true, if_neg, not_false_iff]
          rw [nonWs_append, nonWs_cons_space (by decide), nonWs_cons_space (by decide),
            nonWs_pstrip, List.append_assoc]
      · rw [if_neg hfit]
        rw [List.map_append, List.flatten_append]
        simp only [List.map_cons, List.map_nil, List.flatten_cons, List.flatten_nil,
          List.append_nil, nonWs_pstrip, List.append_assoc]

theorem foldl_stepParagraph_nonWs (m : Nat) (paras : List (List Char)) :
    ∀ st : SplitState,
      ((paras.foldl (stepParagraph m) st).chunks.map nonWs).flatten
          ++ nonWs (paras.foldl (stepParagraph m) st).current
        = (st.chunks.map nonWs).flatten ++ nonWs st.current ++ (paras.map nonWs).flatten := by
  induction paras with
  | nil => intro st; simp
  | cons p rest ih =>
    intro st
    rw [List.foldl_cons, ih, stepParagraph_nonWs]
    simp [List.append_assoc]

/-- Claim C3 (confirmed): for every input text and every max_chunk_size,
concatenating all chunks returned by `split_text_into_chunks` and ignoring
whitespace reproduces exactly the non-whitespace content of the input in
order, with no character lost and none duplicated. -/
theorem claim_C3 (text : List Char) (maxChunkSize : Nat) :
    nonWs ((split_text_into_chunks text maxChunkSize).flatten) = nonWs text := by
  have hkey := foldl_stepParagraph_nonWs maxChunkSize (splitOnPar text) ⟨[], []⟩
  rw [splitOnPar_nonWs] at hkey
  set st := (splitOnPar text).foldl (stepParagraph maxChunkSize)
    (⟨[], []⟩ : SplitState) with hst
  have hdef : split_text_into_chunks text maxChunkSize
      = st.chunks ++ (if st.current.isEmpty then [] else [pstrip st.current]) := rfl
  rw [hdef]
  have hflat : nonWs ((st.chunks
      ++ (if st.current.isEmpty then [] else [pstrip st.current])).flatten)
      = (st.chunks.map nonWs).flatten
        ++ (if st.current.isEmpty then [] else nonWs st.current) := by
    rw [List.flatten_append, nonWs_append]
    have h1 : nonWs st.chunks.flatten = (st.chunks.map nonWs).flatten :=
      List.filter_flatten _ _
    rw [h1]
    by_cases he : st.current.isEmpty
    · simp [he, nonWs]
    · have he' : st.current.isEmpty = false := Bool.eq_false_iff.mpr he
      simp [he', nonWs_pstrip]
  rw [hflat]
  by_cases he : st.current.isEmpty
  · have hc : st.current = [] := List.isEmpty_iff.mp he
    rw [hc] at hkey
    simp only [he, if_pos]
    simpa [nonWs] using hkey
  · have he' : st.current.isEmpty = false := Bool.eq_false_iff.mpr he
    simp only [he', Bool.false_eq_true, if_neg, not_false_iff]
    simpa [nonWs] using hkey

/-! ## Shape of sentence pieces: non-empty and already stripped -/

theorem foldl_preserve {α β : Type} {P : β → Prop} {f : β → α → β} :
    ∀ (xs : List α), (∀ st x, x ∈ xs → P st → P (f st x)) →
      ∀ st, P st → P (xs.foldl f st) := by
  intro xs
  induction xs with
  | nil => intro h st hst; simpa using hst
  | cons x rest ih =>
    intro h st hst
    rw [List.foldl_cons]
    exact ih (fun st2 y hy => h st2 y (List.mem_cons_of_mem _ hy))
      (f st x) (h st x (List.mem_cons_self _ _) hst)

theorem sentGo_pieces :
    ∀ (s : List Char) (prevPunct : Bool) (acc : List Char),
      (∀ c, acc.head? = some c → isSpace c = false) →
      (prevPunct = true → ∃ a, acc.getLast? = some a ∧ isSentEnd a = true) →
      (s = [] → acc ≠ []) →
      (s = [] → ∀ c, acc.getLast? = some c → isSpace c = false) →
      (∀ c, s.getLast? = some c → isSpace c = false) →
      (acc = [] → ∀ c, s.head? = some c → isSpace c = false) →
      ∀ piece ∈ sentGo s prevPunct acc,
        piece ≠ [] ∧ (∀ c, piece.head? = some c → isSpace c = false)
          ∧ (∀ c, piece.getLast? = some c → isSpace c = false) := by
  intro s prevPunct acc
  induction s, prevPunct, acc using sentGo.induct with
  | case1 prev acc =>
    intro h1 h2 h3 h4 h5 h6 piece hmem
    rw [sentGo] at hmem
    rw [List.mem_singleton] at hmem
    subst hmem
    exact ⟨h3 rfl, h1, h4 rfl⟩
  | case2 c rest prev acc hcond ih =>
    intro h1 h2 h3 h4 h5 h6 piece hmem
    rw [sentGo, if_pos hcond] at hmem
    have hprev : prev = true := (Bool.and_eq_true _ _ |>.mp hcond).1
    have hspc : isSpace c = true := (Bool.and_eq_true _ _ |>.mp hcond).2
    obtain ⟨a, hga, hpa⟩ := h2 hprev
    have haccne : acc ≠ [] := by
      intro h; rw [h] at hga; exact Option.noConfusion hga
    have hrestne : rest.dropWhile isSpace ≠ [] := by
      intro hdw
      have hall : ∀ x ∈ rest, isSpace x = true := List.dropWhile_eq_nil_iff.mp hdw
      cases rest with
      | nil =>
        have hcf : isSpace c = false := h5 c (by simp)
        rw [hcf] at hspc; exact Bool.noConfusion hspc
      | cons y t =>
        have hyne : (y :: t) ≠ ([] : List Char) := List.cons_ne_nil _ _
        have hlmem : (y :: t).getLast hyne ∈ (y :: t) := List.getLast_mem hyne
        have hlsp : isSpace ((y :: t).getLast hyne) = true := hall _ hlmem
        have hlast : (c :: y :: t).getLast? = some ((y :: t).getLast hyne) := by
          rw [List.getLast?_cons_cons, List.getLast?_eq_getLast (y :: t) hyne]
        have hcf := h5 _ hlast
        rw [hcf] at hlsp; exact Bool.noConfusion hlsp
    rcases List.mem_cons.mp hmem with rfl | hmem2
    · refine ⟨haccne, h1, fun c2 hc2 => ?_⟩
      rw [hga, Option.some.injEq] at hc2
      subst hc2
      exact isSentEnd_not_isSpace hpa
    · refine ih ?_ ?_ ?_ ?_ ?_ ?_ piece hmem2
      · intro c2 hc2; exact absurd hc2 (by simp)
      · intro hfalse; exact absurd hfalse (by simp)
      · intro hdw; exact absurd hdw hrestne
      · intro hdw; exact absurd hdw hrestne
      · intro c2 hc2
        rw [getLast?_dropWhile hrestne] at hc2
        cases rest with
        | nil => exact absurd hc2 (by simp)
        | cons y t => exact h5 c2 (by rw [List.getLast?_cons_cons]; exact hc2)
      · intro hnil c2 hc2; exact head?_dropWhile_not hc2
  | case3 c rest prev acc hcond ih =>
    intro h1 h2 h3 h4 h5 h6 piece hmem
    rw [sentGo, if_neg hcond] at hmem
    refine ih ?_ ?_ ?_ ?_ ?_ ?_ piece hmem
    · intro c2 hc2
      rcases acc with _ | ⟨a, t⟩
      · simp only [List.nil_append, List.head?_cons, Option.some.injEq] at hc2
        subst hc2
        exact h6 rfl _ rfl
      · rw [List.cons_append, List.head?_cons, Option.some.injEq] at hc2
        subst hc2
        exact h1 _ rfl
    · intro hpc
      exact ⟨c, List.getLast?_concat acc, hpc⟩
    · intro hrest
      simp
    · intro hrest c2 hc2
      rw [List.getLast?_concat, Option.some.injEq] at hc2
      subst hc2
      refine h5 _ ?_
      rw [hrest]
      simp
    · intro c2 hc2
      cases rest with
      | nil => exact absurd hc2 (by simp)
      | cons y t => exact h5 c2 (by rw [List.getLast?_cons_cons]; exact hc2)
    · intro habs
      exact absurd habs (by simp)

theorem splitSentences_pieces {s : List Char} (hne : s ≠ [])
    (hhead : ∀ c, s.head? = some c → isSpace c = false)
    (hlast : ∀ c, s.getLast? = some c → isSpace c = false) :
    ∀ piece ∈ splitSentences s,
      piece ≠ [] ∧ (∀ c, piece.head? = some c → isSpace c = false)
        ∧ (∀ c, piece.getLast? = some c → isSpace c = false) := by
  unfold splitSentences
  refine sentGo_pieces s false [] ?_ ?_ ?_ ?_ hlast ?_
  · intro c hc; exact absurd hc (by simp)
  · intro h; exact absurd h (by simp)
  · intro h; exact absurd h hne
  · intro h; exact absurd h hne
  · intro _; exact hhead

theorem nonWs_ne_nil_of_piece {piece : List Char} (hp : piece ≠ [])
    (hh : ∀ c, piece.head? = some c → isSpace c = false) : nonWs piece ≠ [] := by
  cases piece with
  | nil => exact absurd rfl hp
  | cons a t =>
    rw [nonWs_cons_nonspace (hh a rfl)]
    exact List.cons_ne_nil _ _

/-! ## Invariant: every emitted chunk is non-empty and stripped -/

theorem stepSentence_inv {m : Nat} {st : SplitState} {s : List Char}
    (hsne : nonWs s ≠ [])
    (hchunks : ∀ ch ∈ st.chunks, ch ≠ [] ∧ pstrip ch = ch)
    (hcur : st.current = [] ∨ nonWs st.current ≠ []) :
    (∀ ch ∈ (stepSentence m st s).chunks, ch ≠ [] ∧ pstrip ch = ch)
      ∧ ((stepSentence m st s).current = []
          ∨ nonWs (stepSentence m st s).current ≠ []) := by
  unfold stepSentence
  by_cases hfit : st.current.length + s.length ≤ m
  · rw [if_pos hfit]
    refine ⟨hchunks, ?_⟩
    by_cases he : st.current.isEmpty
    · rw [if_pos he]
      exact Or.inr hsne
    · rw [if_neg he]
      refine Or.inr ?_
      rw [nonWs_append, nonWs_cons_space (by decide)]
      intro hcontra
      rcases List.append_eq_nil.mp hcontra with ⟨_, h2⟩
      exact hsne h2
  · rw [if_neg hfit]
    refine ⟨?_, Or.inr hsne⟩
    intro ch hc
    rcases List.mem_append.mp hc with hc | hc
    · exact hchunks ch hc
    · by_cases he : st.current.isEmpty
      · rw [if_pos he] at hc
        exact absurd hc (by simp)
      · rw [if_neg he] at hc
        rw [List.mem_singleton] at hc
        subst hc
        have hcne : st.current ≠ [] := fun h => he (by rw [h]; rfl)
        have hnws : nonWs st.current ≠ [] := by
          rcases hcur with h | h
          · exact absurd h hcne
          · exact h
        exact ⟨pstrip_ne_nil hnws, pstrip_idem _⟩

theorem stepParagraph_inv {m : Nat} {st : SplitState} {para : List Char}
    (hchunks : ∀ ch ∈ st.chunks, ch ≠ [] ∧ pstrip ch = ch)
    (hcur : st.current = [] ∨ nonWs st.current ≠ []) :
    (∀ ch ∈ (stepParagraph m st para).chunks, ch ≠ [] ∧ pstrip ch = ch)
      ∧ ((stepParagraph m st para).current = []
          ∨ nonWs (stepParagraph m st para).current ≠ []) := by
  unfold stepParagraph
  by_cases hemp : (pstrip para).isEmpty
  · rw [if_pos hemp]
    exact ⟨hchunks, hcur⟩
  · rw [if_neg hemp]
    have hpne : pstrip para ≠ [] := fun h => hemp (by rw [h]; rfl)
    have hphead : ∀ c, (pstrip para).head? = some c → isSpace c = false :=
      fun _ hc => pstrip_head? hc
    have hplast : ∀ c, (pstrip para).getLast? = some c → isSpace c = false :=
      fun _ hc => pstrip_getLast? hc
    have hpnws : nonWs (pstrip para) ≠ [] := nonWs_ne_nil_of_piece hpne hphead
    by_cases hlong : m < (pstrip para).length
    · rw [if_pos hlong]
      have hpieces := splitSentences_pieces hpne hphead hplast
      refine foldl_preserve (P := fun st0 =>
          (∀ ch ∈ st0.chunks, ch ≠ [] ∧ pstrip ch = ch)
            ∧ (st0.current = [] ∨ nonWs st0.current ≠ []))
        (splitSentences (pstrip para)) ?_ st ⟨hchunks, hcur⟩
      intro st0 x hx hst0
      obtain ⟨hxne, hxh, _⟩ := hpieces x hx
      exact stepSentence_inv (nonWs_ne_nil_of_piece hxne hxh) hst0.1 hst0.2
    · rw [if_neg hlong]
      by_cases hfit : st.current.length + (pstrip para).length ≤ m
      · rw [if_pos hfit]
        refine ⟨hchunks, Or.inr ?_⟩
        by_cases he : st.current.isEmpty
        · rw [if_pos he]
          exact hpnws
        · rw [if_neg he]
          rw [nonWs_append, nonWs_cons_space (by decide), nonWs_cons_space (by decide)]
          intro hcontra
          rcases List.append_eq_nil.mp hcontra with ⟨_, h2⟩
          exact hpnws h2
      · rw [if_neg hfit]
        have hcne : st.current ≠ [] := by
          intro h
          apply hfit
          rw [h]
          simpa using Nat.le_of_not_lt hlong
        have hnws : nonWs st.current ≠ [] := by
          rcases hcur with h | h
          · exact absurd h hcne
          · exact h
        refine ⟨?_, Or.inr hpnws⟩
        intro ch hc
        rcases List.mem_append.mp hc with hc | hc
        · exact hchunks ch hc
        · rw [List.mem_singleton] at hc
          subst hc
          exact ⟨pstrip_ne_nil hnws, pstrip_idem _⟩

/-- Claim C9 (confirmed): every string in the sequence returned by
`split_text_into_chunks` is non-empty and carries no leading or trailing
whitespace (each chunk equals its own whitespace-stripped form), for every
input text and every positive max_chunk_size. -/
theorem claim_C9 (text : List Char) (maxChunkSize : Nat) (_hpos : 0 < maxChunkSize) :
    ∀ chunk ∈ split_text_into_chunks text maxChunkSize,
      chunk ≠ [] ∧ pstrip chunk = chunk := by
  intro chunk hmem
  have hfold := foldl_preserve (f := stepParagraph maxChunkSize)
    (P := fun st0 : SplitState =>
      (∀ ch ∈ st0.chunks, ch ≠ [] ∧ pstrip ch = ch)
        ∧ (st0.current = [] ∨ nonWs st0.current ≠ []))
    (splitOnPar text)
    (fun st0 x hx hst0 => stepParagraph_inv hst0.1 hst0.2)
    ⟨[], []⟩ ⟨fun ch hc => absurd hc (by simp), Or.inl rfl⟩
  set st := (splitOnPar text).foldl (stepParagraph maxChunkSize)
    (⟨[], []⟩ : SplitState) with hst
  have hdef : split_text_into_chunks text maxChunkSize
      = st.chunks ++ (if st.current.isEmpty then [] else [pstrip st.current]) := rfl
  rw [hdef] at hmem
  rcases List.mem_append.mp hmem with hc | hc
  · exact hfold.1 chunk hc
  · by_cases he : st.current.isEmpty
    · rw [if_pos he] at hc
      exact absurd hc (by simp)
    · rw [if_neg he] at hc
      rw [List.mem_singleton] at hc
      subst hc
      have hcne : st.current ≠ [] := fun h => he (by rw [h]; rfl)
      have hnws : nonWs st.current ≠ [] := by
        rcases hfold.2 with h | h
        · exact absurd h hcne
        · exact h
      exact ⟨pstrip_ne_nil hnws, pstrip_idem _⟩

/-- Claim C9 witness: the chunk produced for the one-character input "a" with
max_chunk_size 5 is non-empty and equals its stripped form. -/
theorem claim_C9_witness : (['a'] : List Char) ≠ [] ∧ pstrip ['a'] = ['a'] :=
  claim_C9 ("a".toList) 5 (by decide) ['a'] (by decide)

/-! ## Invariant: chunk sizes are bounded by max_chunk_size plus the joiner
slack, except lone oversized sentences -/

theorem stepSentence_bound {m : Nat} {text : List Char} {p0 s : List Char}
    (hp0 : p0 ∈ splitOnPar text) (hs : s ∈ splitSentences (pstrip p0))
    {st : SplitState}
    (hchunks : ∀ ch ∈ st.chunks, ch.length ≤ m + 2
      ∨ ∃ p ∈ splitOnPar text, ∃ s0 ∈ splitSentences (pstrip p),
          ch = pstrip s0 ∧ m < s0.length)
    (hcur : st.current.length ≤ m + 2
      ∨ ∃ p ∈ splitOnPar text, st.current ∈ splitSentences (pstrip p)
          ∧ m < st.current.length) :
    (∀ ch ∈ (stepSentence m st s).chunks, ch.length ≤ m + 2
      ∨ ∃ p ∈ splitOnPar text, ∃ s0 ∈ splitSentences (pstrip p),
          ch = pstrip s0 ∧ m < s0.length)
      ∧ ((stepSentence m st s).current.length ≤ m + 2
        ∨ ∃ p ∈ splitOnPar text, (stepSentence m st s).current ∈ splitSentences (pstrip p)
            ∧ m < (stepSentence m st s).current.length) := by
  unfold stepSentence
  by_cases hfit : st.current.length + s.length ≤ m
  · rw [if_pos hfit]
    refine ⟨hchunks, Or.inl ?_⟩
    dsimp only
    by_cases he : st.current.isEmpty
    · rw [if_pos he]
      omega
    · rw [if_neg he]
      rw [List.length_append, List.length_cons]
      omega
  · rw [if_neg hfit]
    constructor
    · intro ch hc
      rcases List.mem_append.mp hc with hc | hc
      · exact hchunks ch hc
      · by_cases he : st.current.isEmpty
        · rw [if_pos he] at hc
          exact absurd hc (by simp)
        · rw [if_neg he] at hc
          rw [List.mem_singleton] at hc
          subst hc
          rcases hcur with hlen | ⟨p, hp, hmem2, hlen⟩
          · exact Or.inl (le_trans (pstrip_length_le _) hlen)
          · exact Or.inr ⟨p, hp, st.current, hmem2, rfl, hlen⟩
    · dsimp only
      rcases le_or_lt s.length (m + 2) with hsl | hsl
      · exact Or.inl hsl
      · exact Or.inr ⟨p0, hp0, hs, by omega⟩

theorem stepParagraph_bound {m : Nat} {text : List Char} {para : List Char}
    (hpara : para ∈ splitOnPar text) {st : SplitState}
    (hchunks : ∀ ch ∈ st.chunks, ch.length ≤ m + 2
      ∨ ∃ p ∈ splitOnPar text, ∃ s0 ∈ splitSentences (pstrip p),
          ch = pstrip s0 ∧ m < s0.length)
    (hcur : st.current.length ≤ m + 2
      ∨ ∃ p ∈ splitOnPar text, st.current ∈ splitSentences (pstrip p)
          ∧ m < st.current.length) :
    (∀ ch ∈ (stepParagraph m st para).chunks, ch.length ≤ m + 2
      ∨ ∃ p ∈ splitOnPar text, ∃ s0 ∈ splitSentences (pstrip p),
          ch = pstrip s0 ∧ m < s0.length)
      ∧ ((stepParagraph m st para).current.length ≤ m + 2
        ∨ ∃ p ∈ splitOnPar text,
            (stepParagraph m st para).current ∈ splitSentences (pstrip p)
              ∧ m < (stepParagraph m st para).current.length) := by
  unfold stepParagraph
  by_cases hemp : (pstrip para).isEmpty
  · rw [if_pos hemp]
    exact ⟨hchunks, hcur⟩
  · rw [if_neg hemp]
    by_cases hlong : m < (pstrip para).length
    · rw [if_pos hlong]
      refine foldl_preserve (f := stepSentence m)
        (P := fun st0 : SplitState =>
          (∀ ch ∈ st0.chunks, ch.length ≤ m + 2
            ∨ ∃ p ∈ splitOnPar text, ∃ s0 ∈ splitSentences (pstrip p),
                ch = pstrip s0 ∧ m < s0.length)
            ∧ (st0.current.length ≤ m + 2
              ∨ ∃ p ∈ splitOnPar text, st0.current ∈ splitSentences (pstrip p)
                  ∧ m < st0.current.length))
        (splitSentences (pstrip para)) ?_ st ⟨hchunks, hcur⟩
      intro st0 x hx hst0
      exact stepSentence_bound hpara hx hst0.1 hst0.2
    · rw [if_neg hlong]
      have hple : (pstrip para).length ≤ m := Nat.le_of_not_lt hlong
      by_cases hfit : st.current.length + (pstrip para).length ≤ m
      · rw [if_pos hfit]
        refine ⟨hchunks, Or.inl ?_⟩
        dsimp only
        by_cases he : st.current.isEmpty
        · rw [if_pos he]
          omega
        · rw [if_neg he]
          rw [List.length_append, List.length_cons, List.length_cons]
          omega
      · rw [if_neg hfit]
        constructor
        · intro ch hc
          rcases List.mem_append.mp hc with hc | hc
          · exact hchunks ch hc
          · rw [List.mem_singleton] at hc
            subst hc
            rcases hcur with hlen | ⟨p, hp, hmem2, hlen⟩
            · exact Or.inl (le_trans (pstrip_length_le _) hlen)
            · exact Or.inr ⟨p, hp, st.current, hmem2, rfl, hlen⟩
        · refine Or.inl ?_
          dsimp only
          omega

/-- Claim C1 counterexample: with input `"ab\n\ncd"` and `max_chunk_size = 4`
the chunker returns the single 6-character chunk `"ab\n\ncd"`, which exceeds
the limit yet is not a single indivisible unit (not one sentence of a
paragraph, nor one boundary-free paragraph): the fit test
`len(current) + len(paragraph) <= max` ignores the inserted `"\n\n"` joiner. -/
theorem claim_C1_counterexample :
    ¬ (∀ chunk ∈ split_text_into_chunks ("ab\n\ncd".toList) 4,
        chunk.length ≤ 4
          ∨ (4 < chunk.length
            ∧ (∃ p ∈ splitOnPar ("ab\n\ncd".toList),
                chunk ∈ splitSentences (pstrip p)
                  ∨ (chunk = pstrip p ∧ splitSentences (pstrip p) = [pstrip p])))) := by
  intro h
  have hchunk := h ("ab\n\ncd".toList) (by decide)
  have hp1 : pstrip ("ab".toList) = "ab".toList := by decide
  have hp2 : pstrip ("cd".toList) = "cd".toList := by decide
  have hs1 : splitSentences ("ab".toList) = ["ab".toList] := by
    simp +decide [splitSentences, sentGo]
  have hs2 : splitSentences ("cd".toList) = ["cd".toList] := by
    simp +decide [splitSentences, sentGo]
  have hpar : splitOnPar ("ab\n\ncd".toList) = ["ab".toList, "cd".toList] := by decide
  rcases hchunk with hlen | ⟨hgt, p, hp, hunit⟩
  · exact absurd hlen (by decide)
  · rw [hpar] at hp
    have hp' : p = "ab".toList ∨ p = "cd".toList := by simpa using hp
    rcases hp' with rfl | rfl
    · rw [hp1, hs1] at hunit
      rcases hunit with hmem | ⟨heq, _⟩
      · exact absurd hmem (by decide)
      · exact absurd heq (by decide)
    · rw [hp2, hs2] at hunit
      rcases hunit with hmem | ⟨heq, _⟩
      · exact absurd hmem (by decide)
      · exact absurd heq (by decide)

/-- Claim C1 (corrected): every chunk returned by `split_text_into_chunks` has
length at most `max_chunk_size + 2` — the fit test ignores the joining
separator, so a chunk may exceed the limit by the length of the inserted
blank-line (2 chars) or space (1 char) joiner — except a chunk that is the
stripped form of a single indivisible sentence (an oversized paragraph with no
internal sentence boundary is its own single sentence) whose own length
exceeds `max_chunk_size`. -/
theorem claim_C1 (text : List Char) (maxChunkSize : Nat) :
    ∀ chunk ∈ split_text_into_chunks text maxChunkSize,
      chunk.length ≤ maxChunkSize + 2
        ∨ ∃ p ∈ splitOnPar text, ∃ s0 ∈ splitSentences (pstrip p),
            chunk = pstrip s0 ∧ maxChunkSize < s0.length := by
  intro chunk hmem
  have hfold := foldl_preserve (f := stepParagraph maxChunkSize)
    (P := fun st0 : SplitState =>
      (∀ ch ∈ st0.chunks, ch.length ≤ maxChunkSize + 2
        ∨ ∃ p ∈ splitOnPar text, ∃ s0 ∈ splitSentences (pstrip p),
            ch = pstrip s0 ∧ maxChunkSize < s0.length)
        ∧ (st0.current.length ≤ maxChunkSize + 2
          ∨ ∃ p ∈ splitOnPar text, st0.current ∈ splitSentences (pstrip p)
              ∧ maxChunkSize < st0.current.length))
    (splitOnPar text)
    (fun st0 x hx hst0 => stepParagraph_bound hx hst0.1 hst0.2)
    ⟨[], []⟩ ⟨fun ch hc => absurd hc (by simp), Or.inl (by simp)⟩
  set st := (splitOnPar text).foldl (stepParagraph maxChunkSize)
    (⟨[], []⟩ : SplitState) with hst
  have hdef : split_text_into_chunks text maxChunkSize
      = st.chunks ++ (if st.current.isEmpty then [] else [pstrip st.current]) := rfl
  rw [hdef] at hmem
  rcases List.mem_append.mp hmem with hc | hc
  · exact hfold.1 chunk hc
  · by_cases he : st.current.isEmpty
    · rw [if_pos he] at hc
      exact absurd hc (by simp)
    · rw [if_neg he] at hc
      rw [List.mem_singleton] at hc
      subst hc
      rcases hfold.2 with hlen | ⟨p, hp, hmem2, hlen⟩
      · exact Or.inl (le_trans (pstrip_length_le _) hlen)
      · exact Or.inr ⟨p, hp, st.current, hmem2, rfl, hlen⟩

/-- Claim C1 witness: the corrected bound evaluated on the counterexample
input: the single chunk `"ab\n\ncd"` has length 6 = 4 + 2. -/
theorem claim_C1_witness :
    ("ab\n\ncd".toList).length ≤ 4 + 2
      ∨ ∃ p ∈ splitOnPar ("ab\n\ncd".toList),
          ∃ s0 ∈ splitSentences (pstrip p),
            "ab\n\ncd".toList = pstrip s0 ∧ 4 < s0.length :=
  claim_C1 ("ab\n\ncd".toList) 4 ("ab\n\ncd".toList) (by decide)

end DocCore
